import Mathlib

/-!
Shallow embedding of `kern/monitor.c`, the interactive kernel monitor:
the stack-backtrace unwinder (`mon_backtrace` and `print_curr_trace`),
the in-place line tokenizer and command dispatcher (`runcmd`), and the
read-eval loop (`monitor`).

Machine model: 32-bit words and addresses are natural numbers reduced
modulo `W = 2^32`; kernel memory is a function `mem : Nat → Nat`, and a
word load at address `a` returns `mem (a % W) % W`.  The x86 frame
convention links stack frames: the word at a frame base is the saved
caller frame base, and the word 4 bytes above it is the return address.
`mon_backtrace` loops until the frame base equals `bootstacktop - 8`
(computed with 32-bit wraparound, `usub32`); since the C loop has no
other bound, the unwind loop is embedded with explicit fuel and yields
`none` when the fuel runs out before the sentinel is reached.

The two inline-assembly reads of `print_curr_trace` at `(%ebp)` and
`0x4(%ebp)` and the seven reads of the `mon_backtrace` loop body have
the same shape, so both are embedded through one `readFrame` function
applied to the respective frame-base address.  The fact that the word
at `print_curr_trace`'s own frame base is `mon_backtrace`'s frame base
(the callee prologue pushed the caller's `%ebp`) is a property of the
machine, passed to the theorems as the hypothesis `rd mem pct_ebp =
curr_bp`.

The monitor's console output is modelled structurally: each frame
contributes one `TraceLine.primary` line and, when the resolver
`debuginfo_eip` succeeds on the return address, one `TraceLine.annot`
line (file, line, function name truncated to its reported length, and
the 32-bit difference between the return address and the function start
address), exactly as the two `cprintf` calls of the source do.
-/

namespace Monitor

/-! ### Machine words and memory -/

/-- Modulus of 32-bit machine words and addresses. -/
def W : Nat := 2 ^ 32

/-- A 32-bit word load: the address wraps modulo `W` and the loaded
value is a 32-bit word. -/
def rd (mem : Nat → Nat) (a : Nat) : Nat := mem (a % W) % W

/-- 32-bit unsigned subtraction `a - b` with wraparound, as computed on
`uint32_t` operands in C. -/
def usub32 (a b : Nat) : Nat := (a % W + (W - b % W)) % W

/-! ### Frame records (`print_curr_trace` and the `mon_backtrace` loop) -/

/-- One emitted backtrace record: the reported frame base (`prev_ebp`),
the reported return address (`prev_eip`), and the five argument words
(`prev_args[0..4]`). -/
structure FrameRecord where
  ebp : Nat
  eip : Nat
  args : List Nat
deriving DecidableEq, Repr

/-- The seven word loads performed for one backtrace record at
frame-base address `bp`: `prev_ebp` from `(bp)`, `prev_eip` from
`0x4(bp)`, and the five argument words from `0x8(prev_ebp)` through
`0x18(prev_ebp)` — offsets relative to the just-loaded caller frame
base, exactly as in the inline assembly of `kern/monitor.c`. -/
def readFrame (mem : Nat → Nat) (bp : Nat) : FrameRecord :=
  let prev_ebp := rd mem bp
  let prev_eip := rd mem (bp + 0x4)
  { ebp := prev_ebp
    eip := prev_eip
    args := [rd mem (prev_ebp + 0x8), rd mem (prev_ebp + 0xC),
             rd mem (prev_ebp + 0x10), rd mem (prev_ebp + 0x14),
             rd mem (prev_ebp + 0x18)] }

/-- The frame-base advance at the bottom of the `mon_backtrace` loop:
`curr_bp = *(curr_bp)`. -/
def step (mem : Nat → Nat) (bp : Nat) : Nat := rd mem bp

/-- The record emitted by `print_curr_trace`, whose reads are relative
to its own `%ebp` (the argument `ebp` here): they have the same shape
as the loop body's reads, so this is `readFrame` at that address. -/
def print_curr_trace_record (mem : Nat → Nat) (ebp : Nat) : FrameRecord :=
  readFrame mem ebp

/-- The `while (curr_bp != (uint32_t)bootstacktop-8)` loop of
`mon_backtrace`, with the sentinel passed in as `s` and explicit fuel:
`some records` when the frame chain reaches the sentinel within `fuel`
dereference steps, `none` otherwise (the C loop would keep running). -/
def unwindLoop (mem : Nat → Nat) (s : Nat) : Nat → Nat → Option (List FrameRecord)
  | 0, bp => if bp = s then some [] else none
  | fuel + 1, bp =>
      if bp = s then some []
      else (unwindLoop mem s fuel (step mem bp)).map (fun l => readFrame mem bp :: l)

/-- The sequence of frame records emitted by `mon_backtrace`: the
record printed by `print_curr_trace` (reads relative to
`print_curr_trace`'s own frame base `pct_ebp`) followed by the records
of the unwind loop started at `curr_bp`, the `%ebp` of `mon_backtrace`
itself; the sentinel is `(uint32_t)bootstacktop - 8`. -/
def mon_backtrace_records (mem : Nat → Nat) (bootstacktop pct_ebp curr_bp fuel : Nat) :
    Option (List FrameRecord) :=
  (unwindLoop mem (usub32 bootstacktop 8) fuel curr_bp).map
    (fun l => print_curr_trace_record mem pct_ebp :: l)

/-! ### Debug-info annotation (`debuginfo_eip`) -/

/-- The fields of `struct Eipdebuginfo` used by the monitor. -/
structure Eipdebuginfo where
  eip_file : String
  eip_line : Nat
  eip_fn_name : String
  eip_fn_namelen : Nat
  eip_fn_addr : Nat
deriving DecidableEq, Repr

/-- One line of backtrace output: the primary
`ebp ... eip ... args ...` line, or the secondary
`file:line: name+offset` annotation line. -/
inductive TraceLine where
  | primary (ebp eip : Nat) (args : List Nat)
  | annot (file : String) (line : Nat) (fn : String) (off : Nat)
deriving DecidableEq, Repr

/-- The lines printed for one frame record `r`: the primary line
always, and the annotation line exactly when the resolver
`debuginfo_eip` succeeds on `r.eip` (`if(!debuginfo_eip(prev_eip,
&info))` in C).  The function name is truncated to its reported length
(`%.*s`), and the offset is the `uint32_t` difference
`prev_eip - (uint32_t)info.eip_fn_addr`. -/
def frameLines (debuginfo_eip : Nat → Option Eipdebuginfo) (r : FrameRecord) :
    List TraceLine :=
  TraceLine.primary r.ebp r.eip r.args ::
    (match debuginfo_eip r.eip with
     | some info =>
         [TraceLine.annot info.eip_file info.eip_line
            (info.eip_fn_name.take info.eip_fn_namelen)
            (usub32 r.eip info.eip_fn_addr)]
     | none => [])

/-- The lines printed by `print_curr_trace` for its own frame base. -/
def print_curr_trace_lines (mem : Nat → Nat)
    (debuginfo_eip : Nat → Option Eipdebuginfo) (ebp : Nat) : List TraceLine :=
  frameLines debuginfo_eip (print_curr_trace_record mem ebp)

/-- All frame lines printed by one `mon_backtrace` run (the
`Stack backtrace:` banner aside): two or one lines per record, in
record order. -/
def mon_backtrace_lines (mem : Nat → Nat)
    (debuginfo_eip : Nat → Option Eipdebuginfo)
    (bootstacktop pct_ebp curr_bp fuel : Nat) : Option (List TraceLine) :=
  (mon_backtrace_records mem bootstacktop pct_ebp curr_bp fuel).map
    (fun l => l.flatMap (frameLines debuginfo_eip))

/-! ### Tokenizer (`runcmd`, parsing part) -/

/-- `#define WHITESPACE "\t\r\n "`. -/
def WHITESPACE : String := "\t\r\n "

/-- `#define MAXARGS 16`. -/
def MAXARGS : Nat := 16

/-- `strchr(WHITESPACE, c) != NULL` for a non-NUL character `c`:
membership in the four whitespace characters. -/
def isWS (c : Char) : Bool := WHITESPACE.toList.contains c

/-- The NUL terminator written over whitespace bytes. -/
def NUL : Char := Char.ofNat 0

/-- The parsing loop of `runcmd` over the mutable line buffer.  The
buffer is split into the already-scanned prefix `done` (reversed) and
the remaining suffix `rest`; `argv` holds the indices of the token
starts found so far (reversed); `mode = false` is the
whitespace-gobbling state (top of the outer `while (1)`), `mode = true`
is the scan-past-token state (the inner `while (*buf &&
!strchr(...))`).  The result is the final buffer contents, the token
start indices in order, and whether the `argc == MAXARGS-1` early
return (`Too many arguments`) was taken. -/
def tokLoop (mode : Bool) (done rest : List Char) (argv : List Nat) :
    List Char × List Nat × Bool :=
  match mode, rest with
  | false, [] => (done.reverse, argv.reverse, false)
  | false, c :: r =>
      if c = NUL then (done.reverse ++ c :: r, argv.reverse, false)
      else if isWS c then tokLoop false (NUL :: done) r argv
      else if argv.length = MAXARGS - 1 then (done.reverse ++ c :: r, argv.reverse, true)
      else tokLoop true (c :: done) r (done.length :: argv)
  | true, [] => (done.reverse, argv.reverse, false)
  | true, c :: r =>
      if c = NUL then tokLoop false done (c :: r) argv
      else if isWS c then tokLoop false done (c :: r) argv
      else tokLoop true (c :: done) r argv
termination_by 2 * rest.length + (if mode then 1 else 0)
decreasing_by
  all_goals simp
  all_goals omega

/-- Tokenization of a whole line buffer: mutated buffer, token start
indices, and the too-many-arguments flag. -/
def tokenize (buf : List Char) : List Char × List Nat × Bool :=
  tokLoop false [] buf []

/-- Reading the C string stored at index `i` of the (mutated) buffer,
as `strcmp` and the handlers do through `argv`: the bytes up to the
first NUL. -/
def tokenStr (buf : List Char) (i : Nat) : List Char :=
  (buf.drop i).takeWhile (fun c => c != NUL)

/-! ### Specification-side views of the buffer, used to state what the
tokenizer computes: the maximal non-whitespace runs of the original
buffer and their start indices. -/

/-- Fuel-indexed helper for `wordsOf`: structural recursion on the
fuel, which any upper bound of the buffer length makes exact (see
`wordsOfF_fuel`). -/
def wordsOfF : Nat → List Char → List (List Char)
  | _, [] => []
  | 0, _ :: _ => []
  | n + 1, c :: r =>
      if isWS c then wordsOfF n r
      else (c :: r.takeWhile (fun d => !isWS d)) :: wordsOfF n (r.dropWhile (fun d => !isWS d))

/-- The maximal runs of non-whitespace characters of a buffer. -/
def wordsOf (l : List Char) : List (List Char) := wordsOfF l.length l

/-- Fuel-indexed helper for `wordStarts`. -/
def wordStartsF : Nat → List Char → Nat → List Nat
  | _, [], _ => []
  | 0, _ :: _, _ => []
  | n + 1, c :: r, i =>
      if isWS c then wordStartsF n r (i + 1)
      else i :: wordStartsF n (r.dropWhile (fun d => !isWS d))
             (i + 1 + (r.takeWhile (fun d => !isWS d)).length)

/-- The start index of each maximal non-whitespace run, the scan
starting at index `i`. -/
def wordStarts (l : List Char) (i : Nat) : List Nat := wordStartsF l.length l i

/-- Whitespace bytes overwritten with NUL, all other bytes unchanged:
the effect of a completed tokenization pass on the buffer. -/
def zapWS (l : List Char) : List Char :=
  l.map (fun c => if isWS c then NUL else c)

/-! ### Command table and dispatcher -/

/-- `struct Command`, with the handler reduced to its integer signal:
every handler of this core ignores its arguments and returns 0 (its
console output is modelled separately, see `mon_backtrace_lines`). -/
structure Command where
  name : List Char
  desc : String
  func : Nat → List (List Char) → Int

/-- `mon_help` return signal: always 0. -/
def mon_help : Nat → List (List Char) → Int := fun _ _ => 0

/-- `mon_kerninfo` return signal: always 0. -/
def mon_kerninfo : Nat → List (List Char) → Int := fun _ _ => 0

/-- `mon_backtrace` return signal: the single `return 0` at the end of
the function (reached whenever the unwind loop terminates, see
`unwindLoop` and `mon_backtrace_records` for the loop itself). -/
def mon_backtrace : Nat → List (List Char) → Int := fun _ _ => 0

/-- The static command table. -/
def commands : List Command :=
  [{ name := "help".toList, desc := "Display this list of commands", func := mon_help },
   { name := "kerninfo".toList, desc := "Display information about the kernel", func := mon_kerninfo },
   { name := "backtrace".toList, desc := "Display stack backtrace", func := mon_backtrace }]

/-- `NCOMMANDS`. -/
def NCOMMANDS : Nat := commands.length

/-- The lookup loop of `runcmd` over a suffix of the command table,
carrying the index `i` of its first entry: the index of the first
entry whose name compares equal to the given token (`strcmp(argv[0],
commands[i].name) == 0`). -/
def lookupIn : List Command → Nat → List Char → Option Nat
  | [], _, _ => none
  | c :: cs, i, w => if w = c.name then some i else lookupIn cs (i + 1) w

/-- The `for (i = 0; i < NCOMMANDS; i++)` lookup of `runcmd`. -/
def lookupCmd (w : List Char) : Option Nat := lookupIn commands 0 w

/-- How one `runcmd` call was dispatched. -/
inductive CmdOutcome where
  | tooMany : CmdOutcome
  | empty : CmdOutcome
  | unknown : List Char → CmdOutcome
  | invoked : Nat → CmdOutcome
deriving DecidableEq, Repr

/-- The dispatch decision of `runcmd` on a line buffer: too many
arguments, no token at all (`argc == 0`), handler `i` invoked on the
first token, or unknown command name. -/
def runcmdOutcome (buf : List Char) : CmdOutcome :=
  match tokenize buf with
  | (_, _, true) => CmdOutcome.tooMany
  | (mbuf, argvIdx, false) =>
      match argvIdx with
      | [] => CmdOutcome.empty
      | i0 :: _ =>
          match lookupCmd (tokenStr mbuf i0) with
          | some i => CmdOutcome.invoked i
          | none => CmdOutcome.unknown (tokenStr mbuf i0)

/-- The value returned by `runcmd`: 0 on the too-many-arguments early
return, 0 on an empty line, the handler's return value when a command
matches, and 0 after the `Unknown command` message. -/
def runcmd (buf : List Char) : Int :=
  match tokenize buf with
  | (_, _, true) => 0
  | (mbuf, argvIdx, false) =>
      match argvIdx with
      | [] => 0
      | i0 :: _ =>
          match lookupCmd (tokenStr mbuf i0) with
          | some i =>
              match commands[i]? with
              | some c => c.func argvIdx.length (argvIdx.map (tokenStr mbuf))
              | none => 0
          | none => 0

/-- The diagnostic messages `runcmd` prints itself (handler output
aside): the too-many-arguments notice or the unknown-command notice. -/
def runcmdMsgs (buf : List Char) : List String :=
  match runcmdOutcome buf with
  | CmdOutcome.tooMany => ["Too many arguments (max " ++ toString MAXARGS ++ ")"]
  | CmdOutcome.unknown n => ["Unknown command \x27" ++ String.mk n ++ "\x27"]
  | _ => []

/-- One iteration of the `monitor` read-eval loop: `readline` returned
`line` (`none` models a NULL result); the result is whether the loop
`break`s, i.e. whether `runcmd` returned a negative signal. -/
def monitorStep (line : Option (List Char)) : Bool :=
  match line with
  | none => false
  | some buf => if runcmd buf < 0 then true else false

/-- The `monitor` loop over a finite list of `readline` results:
whether the loop reaches its exit state while consuming them. -/
def monitorRun : List (Option (List Char)) → Bool
  | [] => false
  | line :: rest => if monitorStep line then true else monitorRun rest

end Monitor

namespace Monitor

/-! ### Properties of the unwind loop -/

theorem unwindLoop_sentinel (mem : Nat → Nat) (s fuel : Nat) :
    unwindLoop mem s fuel s = some [] := by
  cases fuel <;> simp [unwindLoop]

theorem unwindLoop_ne (mem : Nat → Nat) (s fuel bp : Nat) (h : bp ≠ s) :
    unwindLoop mem s (fuel + 1) bp =
      (unwindLoop mem s fuel (step mem bp)).map (fun l => readFrame mem bp :: l) := by
  simp [unwindLoop, h]

/-- The loop emits one record per chain step: it produces `some` list
exactly when iterating `curr_bp = *(curr_bp)` reaches the sentinel, and
when `D` is the first index at which the chain hits the sentinel the
list is the `D` records read at the successive frame bases. -/
theorem unwindLoop_first_hit (mem : Nat → Nat) (s : Nat) :
    ∀ D bp fuel, D ≤ fuel →
      (∀ k, k < D → (step mem)^[k] bp ≠ s) →
      (step mem)^[D] bp = s →
      unwindLoop mem s fuel bp =
        some ((List.range D).map (fun k => readFrame mem ((step mem)^[k] bp))) := by
  intro D
  induction D with
  | zero =>
      intro bp fuel _ _ hD
      rw [Function.iterate_zero_apply] at hD
      subst hD
      simp [unwindLoop_sentinel]
  | succ D ih =>
      intro bp fuel hfuel hfirst hD
      have hbp : bp ≠ s := by simpa using hfirst 0 (Nat.succ_pos D)
      obtain ⟨f, rfl⟩ : ∃ f, fuel = f + 1 := ⟨fuel - 1, by omega⟩
      rw [unwindLoop_ne mem s f bp hbp,
          ih (step mem bp) f (by omega)
            (fun k hk => by
              have := hfirst (k + 1) (by omega)
              rwa [Function.iterate_succ_apply] at this)
            (by rw [← Function.iterate_succ_apply]; exact hD)]
      simp [List.range_succ_eq_map, List.map_map, Function.comp,
        Function.iterate_succ_apply]

theorem unwindLoop_terminates_iff (mem : Nat → Nat) (s bp : Nat) :
    (∃ fuel l, unwindLoop mem s fuel bp = some l) ↔
      ∃ k, (step mem)^[k] bp = s := by
  constructor
  · rintro ⟨fuel, l, h⟩
    induction fuel generalizing bp l with
    | zero =>
        rw [unwindLoop] at h
        split at h
        · next hbp => exact ⟨0, by simpa using hbp⟩
        · cases h
    | succ f ih =>
        by_cases hbp : bp = s
        · exact ⟨0, by simpa using hbp⟩
        · rw [unwindLoop_ne mem s f bp hbp] at h
          obtain ⟨l', hl', -⟩ := Option.map_eq_some'.mp h
          obtain ⟨k, hk⟩ := ih (step mem bp) l' hl'
          exact ⟨k + 1, by rwa [Function.iterate_succ_apply]⟩
  · rintro ⟨k, hk⟩
    refine ⟨k, ?_⟩
    induction k generalizing bp with
    | zero =>
        rw [Function.iterate_zero_apply] at hk
        refine ⟨[], ?_⟩
        rw [hk]
        exact unwindLoop_sentinel mem s 0
    | succ k ih =>
        by_cases hbp : bp = s
        · refine ⟨[], ?_⟩
          rw [hbp]
          exact unwindLoop_sentinel mem s (k + 1)
        · rw [unwindLoop_ne mem s k bp hbp]
          obtain ⟨l, hl⟩ := ih (step mem bp)
            (by rwa [Function.iterate_succ_apply] at hk)
          exact ⟨readFrame mem bp :: l, by rw [hl]; rfl⟩

theorem unwindLoop_getElem? (mem : Nat → Nat) (s : Nat) :
    ∀ fuel bp l, unwindLoop mem s fuel bp = some l →
      ∀ k r, l[k]? = some r → r = readFrame mem ((step mem)^[k] bp) := by
  intro fuel
  induction fuel with
  | zero =>
      intro bp l h k r hr
      rw [unwindLoop] at h
      split at h
      · cases h; simp at hr
      · cases h
  | succ f ih =>
      intro bp l h k r hr
      by_cases hbp : bp = s
      · subst hbp
        rw [unwindLoop_sentinel] at h
        cases h; simp at hr
      · rw [unwindLoop_ne mem s f bp hbp] at h
        obtain ⟨l', hl', hcons⟩ := Option.map_eq_some'.mp h
        subst hcons
        cases k with
        | zero => simp at hr; simp [← hr]
        | succ k =>
            simp only [List.getElem?_cons_succ] at hr
            rw [ih (step mem bp) l' hl' k r hr, Function.iterate_succ_apply]

theorem readFrame_ebp (mem : Nat → Nat) (bp : Nat) :
    (readFrame mem bp).ebp = rd mem bp := rfl

theorem mon_backtrace_records_eq (mem : Nat → Nat) (bst pct_ebp curr_bp fuel : Nat)
    (lr : List FrameRecord) (h : unwindLoop mem (usub32 bst 8) fuel curr_bp = some lr) :
    mon_backtrace_records mem bst pct_ebp curr_bp fuel =
      some (print_curr_trace_record mem pct_ebp :: lr) := by
  simp [mon_backtrace_records, h]

theorem mon_backtrace_records_inv (mem : Nat → Nat) (bst pct_ebp curr_bp fuel : Nat)
    (l : List FrameRecord) (h : mon_backtrace_records mem bst pct_ebp curr_bp fuel = some l) :
    ∃ lr, unwindLoop mem (usub32 bst 8) fuel curr_bp = some lr ∧
      l = print_curr_trace_record mem pct_ebp :: lr := by
  obtain ⟨lr, hlr, hcons⟩ := Option.map_eq_some'.mp h
  exact ⟨lr, hlr, hcons.symm⟩

/-! ### Concrete machine states used by the witnesses -/

/-- A concrete memory: address 300 (the frame base of
`print_curr_trace`) holds 200, the frame base of `mon_backtrace`;
address 200 holds 100, the sentinel (`bootstacktop = 108`); every
other word holds 7. -/
def memW : Nat → Nat :=
  fun a => if a = 300 then 200 else if a = 200 then 100 else 7

end Monitor

namespace Monitor

/-- Claim C1: for every call stack whose frame chain reaches the
sentinel, with `D` the first number of chain steps from the captured
frame-base register `curr_bp` at which the sentinel is hit,
`mon_backtrace` emits exactly `D + 1` frame records, the current
frame's record (frame base `curr_bp`) first, followed by the loop
records in callee-to-caller chain order. -/
theorem C1_depth_plus_one_records (mem : Nat → Nat) (bst pct_ebp curr_bp D fuel : Nat)
    (hlink : rd mem pct_ebp = curr_bp)
    (hfirst : ∀ k, k < D → (step mem)^[k] curr_bp ≠ usub32 bst 8)
    (hD : (step mem)^[D] curr_bp = usub32 bst 8)
    (hfuel : D ≤ fuel) :
    ∃ l, mon_backtrace_records mem bst pct_ebp curr_bp fuel = some l ∧
      l.length = D + 1 ∧
      l = print_curr_trace_record mem pct_ebp ::
            (List.range D).map (fun k => readFrame mem ((step mem)^[k] curr_bp)) ∧
      l.head? = some (print_curr_trace_record mem pct_ebp) ∧
      (print_curr_trace_record mem pct_ebp).ebp = curr_bp := by
  have hu := unwindLoop_first_hit mem (usub32 bst 8) D curr_bp fuel hfuel hfirst hD
  refine ⟨_, mon_backtrace_records_eq mem bst pct_ebp curr_bp fuel _ hu, by simp, rfl, rfl, ?_⟩
  rw [print_curr_trace_record, readFrame_ebp]
  exact hlink

theorem C1_depth_plus_one_records_witness :
    ∃ l, mon_backtrace_records memW 108 300 200 1 = some l ∧
      l.length = 1 + 1 ∧
      l = print_curr_trace_record memW 300 ::
            (List.range 1).map (fun k => readFrame memW ((step memW)^[k] 200)) ∧
      l.head? = some (print_curr_trace_record memW 300) ∧
      (print_curr_trace_record memW 300).ebp = 200 :=
  C1_depth_plus_one_records memW 108 300 200 1 1 (by decide) (by decide) (by decide)
    (by decide)

/-- Claim C2: the `k`-th record emitted by the unwind loop, whose
frame-base address is the `k`-th chain iterate `fb` of the starting
frame base, consists of the word at `fb + 0` (the caller frame base),
the word at `fb + 4` (the return address), and the five words at
offsets `0x8, 0xC, 0x10, 0x14, 0x18` from the caller frame base (the
value just read at `fb + 0`). -/
theorem C2_loop_record_layout (mem : Nat → Nat) (bst fuel bp : Nat) (l : List FrameRecord)
    (h : unwindLoop mem (usub32 bst 8) fuel bp = some l)
    (k : Nat) (r : FrameRecord) (hr : l[k]? = some r) :
    r = { ebp := rd mem ((step mem)^[k] bp)
          eip := rd mem ((step mem)^[k] bp + 0x4)
          args := [rd mem (rd mem ((step mem)^[k] bp) + 0x8),
                   rd mem (rd mem ((step mem)^[k] bp) + 0xC),
                   rd mem (rd mem ((step mem)^[k] bp) + 0x10),
                   rd mem (rd mem ((step mem)^[k] bp) + 0x14),
                   rd mem (rd mem ((step mem)^[k] bp) + 0x18)] } := by
  rw [unwindLoop_getElem? mem (usub32 bst 8) fuel bp l h k r hr]
  rfl

theorem C2_loop_record_layout_witness :
    readFrame memW 200 =
      { ebp := rd memW ((step memW)^[0] 200)
        eip := rd memW ((step memW)^[0] 200 + 0x4)
        args := [rd memW (rd memW ((step memW)^[0] 200) + 0x8),
                 rd memW (rd memW ((step memW)^[0] 200) + 0xC),
                 rd memW (rd memW ((step memW)^[0] 200) + 0x10),
                 rd memW (rd memW ((step memW)^[0] 200) + 0x14),
                 rd memW (rd memW ((step memW)^[0] 200) + 0x18)] } :=
  C2_loop_record_layout memW 108 1 200 [readFrame memW 200] (by decide) 0
    (readFrame memW 200) (by decide)

/-- Claim C3: the sentinel is `bootstacktop - 8`; the loop stops
exactly at the sentinel (at the sentinel it emits nothing, elsewhere it
emits a record and advances one chain step), it terminates if and only
if the chain of saved caller frame bases reaches the sentinel in
finitely many steps, and under that precondition `mon_backtrace` as a
whole terminates. -/
theorem C3_sentinel_termination (mem : Nat → Nat) (bst pct_ebp curr_bp fuel : Nat)
    (h8 : 8 ≤ bst) (hbW : bst < W) :
    usub32 bst 8 = bst - 8 ∧
    unwindLoop mem (usub32 bst 8) fuel (usub32 bst 8) = some [] ∧
    (∀ b, b ≠ usub32 bst 8 →
       unwindLoop mem (usub32 bst 8) (fuel + 1) b =
         (unwindLoop mem (usub32 bst 8) fuel (step mem b)).map
           (fun l => readFrame mem b :: l)) ∧
    ((∃ f l, unwindLoop mem (usub32 bst 8) f curr_bp = some l) ↔
       ∃ k, (step mem)^[k] curr_bp = usub32 bst 8) ∧
    ((∃ k, (step mem)^[k] curr_bp = usub32 bst 8) →
       ∃ f l, mon_backtrace_records mem bst pct_ebp curr_bp f = some l) := by
  refine ⟨?_, unwindLoop_sentinel mem (usub32 bst 8) fuel,
    fun b hb => unwindLoop_ne mem (usub32 bst 8) fuel b hb,
    unwindLoop_terminates_iff mem (usub32 bst 8) curr_bp, ?_⟩
  · unfold usub32 W
    have h1 : bst % 2 ^ 32 = bst := Nat.mod_eq_of_lt hbW
    rw [h1]
    omega
  · intro hreach
    obtain ⟨f, l, hl⟩ := (unwindLoop_terminates_iff mem (usub32 bst 8) curr_bp).mpr hreach
    exact ⟨f, _, mon_backtrace_records_eq mem bst pct_ebp curr_bp f l hl⟩

theorem C3_sentinel_termination_witness :
    usub32 108 8 = 108 - 8 ∧
    unwindLoop memW (usub32 108 8) 5 (usub32 108 8) = some [] ∧
    (∀ b, b ≠ usub32 108 8 →
       unwindLoop memW (usub32 108 8) (5 + 1) b =
         (unwindLoop memW (usub32 108 8) 5 (step memW b)).map
           (fun l => readFrame memW b :: l)) ∧
    ((∃ f l, unwindLoop memW (usub32 108 8) f 200 = some l) ↔
       ∃ k, (step memW)^[k] 200 = usub32 108 8) ∧
    ((∃ k, (step memW)^[k] 200 = usub32 108 8) →
       ∃ f l, mon_backtrace_records memW 108 300 200 f = some l) :=
  C3_sentinel_termination memW 108 300 200 5 (by decide) (by decide)

/-- Claim C4: the first emitted record, produced by
`print_curr_trace` outside the generic loop, reports the frame base
`curr_bp` of the calling context and reads its five argument words at
offsets `0x8` through `0x18` from `curr_bp` itself — the frame's own
frame base — rather than through a further chain step. -/
theorem C4_first_record_own_frame (mem : Nat → Nat) (bst pct_ebp curr_bp fuel : Nat)
    (l : List FrameRecord) (hlink : rd mem pct_ebp = curr_bp)
    (h : mon_backtrace_records mem bst pct_ebp curr_bp fuel = some l) :
    l.head? = some { ebp := curr_bp
                     eip := rd mem (pct_ebp + 0x4)
                     args := [rd mem (curr_bp + 0x8), rd mem (curr_bp + 0xC),
                              rd mem (curr_bp + 0x10), rd mem (curr_bp + 0x14),
                              rd mem (curr_bp + 0x18)] } := by
  obtain ⟨lr, -, rfl⟩ := mon_backtrace_records_inv mem bst pct_ebp curr_bp fuel l h
  simp [print_curr_trace_record, readFrame, hlink]

theorem C4_first_record_own_frame_witness :
    [print_curr_trace_record memW 300, readFrame memW 200].head? =
      some { ebp := 200
             eip := rd memW (300 + 0x4)
             args := [rd memW (200 + 0x8), rd memW (200 + 0xC),
                      rd memW (200 + 0x10), rd memW (200 + 0x14),
                      rd memW (200 + 0x18)] } :=
  C4_first_record_own_frame memW 108 300 200 1
    [print_curr_trace_record memW 300, readFrame memW 200] (by decide) (by decide)

/-- Claim C5: in one backtrace, each emitted record's reported frame
base is one dereference step from the previous record's reported frame
base: consecutive records `r` (index `k`) and the next one (index
`k + 1`) satisfy `next.ebp = *(r.ebp)`. -/
theorem C5_chain_invariant (mem : Nat → Nat) (bst pct_ebp curr_bp fuel : Nat)
    (l : List FrameRecord) (hlink : rd mem pct_ebp = curr_bp)
    (h : mon_backtrace_records mem bst pct_ebp curr_bp fuel = some l)
    (k : Nat) (r rnext : FrameRecord)
    (hr : l[k]? = some r) (hrnext : l[k + 1]? = some rnext) :
    rnext.ebp = rd mem r.ebp := by
  obtain ⟨lr, hlr, rfl⟩ := mon_backtrace_records_inv mem bst pct_ebp curr_bp fuel l h
  cases k with
  | zero =>
      simp only [List.getElem?_cons_zero, Option.some.injEq] at hr
      have h1 : lr[0]? = some rnext := by simpa using hrnext
      rw [unwindLoop_getElem? mem (usub32 bst 8) fuel curr_bp lr hlr 0 rnext h1]
      rw [← hr, print_curr_trace_record, readFrame_ebp, readFrame_ebp, hlink,
        Function.iterate_zero_apply]
  | succ k =>
      have h1 : lr[k]? = some r := by simpa using hr
      have h2 : lr[k + 1]? = some rnext := by simpa using hrnext
      rw [unwindLoop_getElem? mem (usub32 bst 8) fuel curr_bp lr hlr k r h1,
        unwindLoop_getElem? mem (usub32 bst 8) fuel curr_bp lr hlr (k + 1) rnext h2,
        readFrame_ebp, readFrame_ebp, Function.iterate_succ_apply']
      rfl

theorem C5_chain_invariant_witness :
    (readFrame memW 200).ebp = rd memW (print_curr_trace_record memW 300).ebp :=
  C5_chain_invariant memW 108 300 200 1
    [print_curr_trace_record memW 300, readFrame memW 200] (by decide) (by decide) 0
    (print_curr_trace_record memW 300) (readFrame memW 200) (by decide) (by decide)

/-- Claim C6: for every emitted record, the primary `ebp/eip/args`
line is always printed, and a secondary annotation line is printed if
and only if the resolver succeeds on the record's return address; on
success the annotation carries the file name, the line number, the
function name truncated to its reported length, and the offset
`return_address - function_start_address` (32-bit subtraction); on
failure nothing extra is printed for that frame. -/
theorem C6_annotation_iff_resolved (debuginfo_eip : Nat → Option Eipdebuginfo)
    (r : FrameRecord) :
    (frameLines debuginfo_eip r).head? = some (TraceLine.primary r.ebp r.eip r.args) ∧
    ((frameLines debuginfo_eip r).length = 2 ↔ (debuginfo_eip r.eip).isSome = true) ∧
    (∀ info, debuginfo_eip r.eip = some info →
       frameLines debuginfo_eip r =
         [TraceLine.primary r.ebp r.eip r.args,
          TraceLine.annot info.eip_file info.eip_line
            (info.eip_fn_name.take info.eip_fn_namelen)
            (usub32 r.eip info.eip_fn_addr)]) ∧
    (debuginfo_eip r.eip = none →
       frameLines debuginfo_eip r = [TraceLine.primary r.ebp r.eip r.args]) := by
  refine ⟨?_, ?_, ?_, ?_⟩ <;> cases hd : debuginfo_eip r.eip <;> simp [frameLines, hd]

end Monitor

namespace Monitor

/-! ### Properties of the tokenizer -/

theorem tokLoop_gobble_nil (done : List Char) (argv : List Nat) :
    tokLoop false done [] argv = (done.reverse, argv.reverse, false) := by
  simp [tokLoop]

theorem tokLoop_scan_nil (done : List Char) (argv : List Nat) :
    tokLoop true done [] argv = (done.reverse, argv.reverse, false) := by
  simp [tokLoop]

theorem tokLoop_gobble_ws (c : Char) (r done : List Char) (argv : List Nat)
    (hc : c ≠ NUL) (hw : isWS c = true) :
    tokLoop false done (c :: r) argv = tokLoop false (NUL :: done) r argv := by
  rw [tokLoop]
  simp [hc, hw]

theorem tokLoop_gobble_tok (c : Char) (r done : List Char) (argv : List Nat)
    (hc : c ≠ NUL) (hw : isWS c = false) (hargc : argv.length ≠ MAXARGS - 1) :
    tokLoop false done (c :: r) argv = tokLoop true (c :: done) r (done.length :: argv) := by
  rw [tokLoop]
  simp [hc, hw, hargc]

theorem tokLoop_gobble_full (c : Char) (r done : List Char) (argv : List Nat)
    (hc : c ≠ NUL) (hw : isWS c = false) (hargc : argv.length = MAXARGS - 1) :
    tokLoop false done (c :: r) argv = (done.reverse ++ c :: r, argv.reverse, true) := by
  rw [tokLoop]
  simp [hc, hw, hargc]

theorem tokLoop_scan_stop (c : Char) (r done : List Char) (argv : List Nat)
    (hstop : c = NUL ∨ isWS c = true) :
    tokLoop true done (c :: r) argv = tokLoop false done (c :: r) argv := by
  conv_lhs => rw [tokLoop]
  rcases hstop with hc | hw
  · simp [hc]
  · by_cases hc : c = NUL
    · simp [hc]
    · simp [hc, hw]

theorem tokLoop_scan_go (c : Char) (r done : List Char) (argv : List Nat)
    (hc : c ≠ NUL) (hw : isWS c = false) :
    tokLoop true done (c :: r) argv = tokLoop true (c :: done) r argv := by
  rw [tokLoop]
  simp [hc, hw]

theorem wordsOfF_fuel :
    ∀ n m l, l.length ≤ n → l.length ≤ m → wordsOfF n l = wordsOfF m l := by
  intro n
  induction n with
  | zero =>
      intro m l hn _
      have : l = [] := List.length_eq_zero.mp (Nat.le_zero.mp hn)
      subst this
      cases m <;> rfl
  | succ n ih =>
      intro m l hn hm
      cases l with
      | nil => cases m <;> rfl
      | cons c r =>
          obtain ⟨m1, rfl⟩ : ∃ m1, m = m1 + 1 := by
            cases m
            · simp at hm
            · exact ⟨_, rfl⟩
          simp only [List.length_cons] at hn hm
          by_cases hw : isWS c
          · simp only [wordsOfF, if_pos hw]
            exact ih m1 r (by omega) (by omega)
          · simp only [wordsOfF, if_neg hw]
            rw [ih m1 (r.dropWhile (fun d => !isWS d))
              (le_trans ((List.dropWhile_sublist _).length_le) (by omega))
              (le_trans ((List.dropWhile_sublist _).length_le) (by omega))]

theorem wordStartsF_fuel :
    ∀ n m l i, l.length ≤ n → l.length ≤ m → wordStartsF n l i = wordStartsF m l i := by
  intro n
  induction n with
  | zero =>
      intro m l i hn _
      have : l = [] := List.length_eq_zero.mp (Nat.le_zero.mp hn)
      subst this
      cases m <;> rfl
  | succ n ih =>
      intro m l i hn hm
      cases l with
      | nil => cases m <;> rfl
      | cons c r =>
          obtain ⟨m1, rfl⟩ : ∃ m1, m = m1 + 1 := by
            cases m
            · simp at hm
            · exact ⟨_, rfl⟩
          simp only [List.length_cons] at hn hm
          by_cases hw : isWS c
          · simp only [wordStartsF, if_pos hw]
            exact ih m1 r (i + 1) (by omega) (by omega)
          · simp only [wordStartsF, if_neg hw]
            rw [ih m1 (r.dropWhile (fun d => !isWS d)) _
              (le_trans ((List.dropWhile_sublist _).length_le) (by omega))
              (le_trans ((List.dropWhile_sublist _).length_le) (by omega))]

theorem wordsOf_cons_ws (c : Char) (r : List Char) (hw : isWS c = true) :
    wordsOf (c :: r) = wordsOf r := by
  simp only [wordsOf, List.length_cons, wordsOfF, if_pos hw]

theorem wordsOf_cons_tok (c : Char) (r : List Char) (hw : isWS c = false) :
    wordsOf (c :: r) =
      (c :: r.takeWhile (fun d => !isWS d)) :: wordsOf (r.dropWhile (fun d => !isWS d)) := by
  have hnw : ¬isWS c = true := by simp [hw]
  simp only [wordsOf, List.length_cons, wordsOfF, if_neg hnw]
  rw [wordsOfF_fuel r.length (r.dropWhile (fun d => !isWS d)).length
    (r.dropWhile (fun d => !isWS d)) ((List.dropWhile_sublist _).length_le) le_rfl]

theorem wordStarts_cons_ws (c : Char) (r : List Char) (i : Nat) (hw : isWS c = true) :
    wordStarts (c :: r) i = wordStarts r (i + 1) := by
  simp only [wordStarts, List.length_cons, wordStartsF, if_pos hw]

theorem wordStarts_cons_tok (c : Char) (r : List Char) (i : Nat) (hw : isWS c = false) :
    wordStarts (c :: r) i =
      i :: wordStarts (r.dropWhile (fun d => !isWS d))
             (i + 1 + (r.takeWhile (fun d => !isWS d)).length) := by
  have hnw : ¬isWS c = true := by simp [hw]
  simp only [wordStarts, List.length_cons, wordStartsF, if_neg hnw]
  rw [wordStartsF_fuel r.length (r.dropWhile (fun d => !isWS d)).length
    (r.dropWhile (fun d => !isWS d)) _ ((List.dropWhile_sublist _).length_le) le_rfl]

theorem zapWS_cons (c : Char) (r : List Char) :
    zapWS (c :: r) = (if isWS c then NUL else c) :: zapWS r := rfl

theorem zapWS_append (a b : List Char) : zapWS (a ++ b) = zapWS a ++ zapWS b :=
  List.map_append _ a b

theorem zapWS_takeWhile_not_ws (r : List Char) :
    zapWS (r.takeWhile (fun d => !isWS d)) = r.takeWhile (fun d => !isWS d) := by
  induction r with
  | nil => rfl
  | cons c r ih =>
      by_cases hw : isWS c
      · simp [List.takeWhile_cons, hw, zapWS]
      · simp [List.takeWhile_cons, hw, zapWS_cons, ih]

/-- Scanning past a token: the inner `while (*buf && !strchr(...))`
loop consumes the maximal non-whitespace prefix unchanged and hands
control back to the gobble state. -/
theorem tokLoop_scan (rest : List Char) (hnul : NUL ∉ rest) : ∀ done argv,
    tokLoop true done rest argv =
      tokLoop false ((rest.takeWhile (fun d => !isWS d)).reverse ++ done)
        (rest.dropWhile (fun d => !isWS d)) argv := by
  induction rest with
  | nil => intro done argv; simp [tokLoop_scan_nil, tokLoop_gobble_nil]
  | cons c r ih =>
      intro done argv
      have hc : c ≠ NUL := fun h => hnul (h ▸ List.mem_cons_self c r)
      have hrnul : NUL ∉ r := fun h => hnul (List.mem_cons_of_mem c h)
      by_cases hw : isWS c
      · rw [tokLoop_scan_stop c r done argv (Or.inr hw)]
        simp [List.takeWhile_cons, List.dropWhile_cons, hw]
      · rw [tokLoop_scan_go c r done argv hc (Bool.eq_false_iff.mpr hw), ih hrnul]
        simp [List.takeWhile_cons, List.dropWhile_cons, hw, List.append_assoc]

end Monitor

namespace Monitor

/-- Completed tokenization: when the buffer holds at most
`MAXARGS - 1` tokens (counting those already collected in `argv`), the
gobble loop terminates normally, every whitespace byte of the remaining
buffer is overwritten with NUL, every other byte is untouched, and the
recorded token starts are exactly the start indices of the maximal
non-whitespace runs. -/
theorem tokLoop_gobble_complete :
    ∀ n rest, rest.length ≤ n → NUL ∉ rest → ∀ done argv,
      argv.length + (wordsOf rest).length ≤ MAXARGS - 1 →
      tokLoop false done rest argv =
        (done.reverse ++ zapWS rest, argv.reverse ++ wordStarts rest done.length, false) := by
  intro n
  induction n with
  | zero =>
      intro rest hlen _ done argv _
      have : rest = [] := List.length_eq_zero.mp (Nat.le_zero.mp hlen)
      subst this
      simp [tokLoop_gobble_nil, zapWS, wordStarts, wordStartsF]
  | succ n ih =>
      intro rest hlen hnul done argv hcnt
      cases rest with
      | nil => simp [tokLoop_gobble_nil, zapWS, wordStarts, wordStartsF]
      | cons c r =>
          have hc : c ≠ NUL := fun h => hnul (h ▸ List.mem_cons_self c r)
          have hrnul : NUL ∉ r := fun h => hnul (List.mem_cons_of_mem c h)
          have hrlen : r.length ≤ n := by
            simp only [List.length_cons] at hlen
            omega
          by_cases hw : isWS c
          · rw [tokLoop_gobble_ws c r done argv hc hw,
              ih r hrlen hrnul (NUL :: done) argv
                (by rwa [wordsOf_cons_ws c r hw] at hcnt)]
            rw [wordStarts_cons_ws c r done.length hw, zapWS_cons]
            simp [hw]
          · have hwf : isWS c = false := Bool.eq_false_iff.mpr hw
            have hcnt1 : argv.length + 1 +
                (wordsOf (r.dropWhile (fun d => !isWS d))).length ≤ MAXARGS - 1 := by
              rw [wordsOf_cons_tok c r hwf] at hcnt
              simp only [List.length_cons] at hcnt
              omega
            have hargc : argv.length ≠ MAXARGS - 1 := by
              have := hcnt1
              omega
            rw [tokLoop_gobble_tok c r done argv hc hwf hargc,
              tokLoop_scan r hrnul (c :: done) (done.length :: argv),
              ih (r.dropWhile (fun d => !isWS d))
                (le_trans ((List.dropWhile_sublist _).length_le) hrlen)
                (fun h => hrnul ((List.dropWhile_sublist _).subset h))
                ((r.takeWhile (fun d => !isWS d)).reverse ++ c :: done)
                (done.length :: argv) (by simpa using hcnt1)]
            rw [wordStarts_cons_tok c r done.length hwf, zapWS_cons]
            have hbuf : ((r.takeWhile (fun d => !isWS d)).reverse ++ c :: done).reverse ++
                zapWS (r.dropWhile (fun d => !isWS d)) =
                done.reverse ++ (if isWS c then NUL else c) :: zapWS r := by
              conv_rhs => rw [← List.takeWhile_append_dropWhile (p := fun d => !isWS d) (l := r)]
              rw [zapWS_append, zapWS_takeWhile_not_ws]
              simp [hwf, List.append_assoc]
            have hlen2 : ((r.takeWhile (fun d => !isWS d)).reverse ++ c :: done).length =
                done.length + 1 + (r.takeWhile (fun d => !isWS d)).length := by
              simp
              omega
            rw [hbuf, hlen2]
            simp

/-- Overflowing tokenization: when the buffer still holds enough
tokens to push the count past `MAXARGS - 1`, the gobble loop takes the
`Too many arguments` early return. -/
theorem tokLoop_gobble_overflow :
    ∀ n rest, rest.length ≤ n → NUL ∉ rest → ∀ done argv,
      argv.length ≤ MAXARGS - 1 →
      MAXARGS ≤ argv.length + (wordsOf rest).length →
      (tokLoop false done rest argv).2.2 = true := by
  intro n
  induction n with
  | zero =>
      intro rest hlen _ done argv hbnd hcnt
      have : rest = [] := List.length_eq_zero.mp (Nat.le_zero.mp hlen)
      subst this
      exfalso
      simp [wordsOf, wordsOfF, MAXARGS] at hcnt hbnd
      omega
  | succ n ih =>
      intro rest hlen hnul done argv hbnd hcnt
      cases rest with
      | nil =>
          exfalso
          simp [wordsOf, wordsOfF, MAXARGS] at hcnt hbnd
          omega
      | cons c r =>
          have hc : c ≠ NUL := fun h => hnul (h ▸ List.mem_cons_self c r)
          have hrnul : NUL ∉ r := fun h => hnul (List.mem_cons_of_mem c h)
          have hrlen : r.length ≤ n := by
            simp only [List.length_cons] at hlen
            omega
          by_cases hw : isWS c
          · rw [tokLoop_gobble_ws c r done argv hc hw]
            exact ih r hrlen hrnul (NUL :: done) argv hbnd
              (by rwa [wordsOf_cons_ws c r hw] at hcnt)
          · have hwf : isWS c = false := Bool.eq_false_iff.mpr hw
            by_cases hargc : argv.length = MAXARGS - 1
            · rw [tokLoop_gobble_full c r done argv hc hwf hargc]
            · rw [tokLoop_gobble_tok c r done argv hc hwf hargc,
                tokLoop_scan r hrnul (c :: done) (done.length :: argv)]
              refine ih (r.dropWhile (fun d => !isWS d))
                (le_trans ((List.dropWhile_sublist _).length_le) hrlen)
                (fun h => hrnul ((List.dropWhile_sublist _).subset h))
                ((r.takeWhile (fun d => !isWS d)).reverse ++ c :: done)
                (done.length :: argv) (by simp; omega) ?_
              rw [wordsOf_cons_tok c r hwf] at hcnt
              simp only [List.length_cons] at hcnt ⊢
              omega

theorem wordStarts_length :
    ∀ n buf, buf.length ≤ n → ∀ i, (wordStarts buf i).length = (wordsOf buf).length := by
  intro n
  induction n with
  | zero =>
      intro buf hlen i
      have : buf = [] := List.length_eq_zero.mp (Nat.le_zero.mp hlen)
      subst this
      simp [wordStarts, wordStartsF, wordsOf, wordsOfF]
  | succ n ih =>
      intro buf hlen i
      cases buf with
      | nil => simp [wordStarts, wordStartsF, wordsOf, wordsOfF]
      | cons c r =>
          have hrlen : r.length ≤ n := by
            simp only [List.length_cons] at hlen
            omega
          by_cases hw : isWS c
          · rw [wordStarts_cons_ws c r i hw, wordsOf_cons_ws c r hw]
            exact ih r hrlen (i + 1)
          · have hwf : isWS c = false := Bool.eq_false_iff.mpr hw
            rw [wordStarts_cons_tok c r i hwf, wordsOf_cons_tok c r hwf]
            simp only [List.length_cons]
            rw [ih (r.dropWhile (fun d => !isWS d))
              (le_trans ((List.dropWhile_sublist _).length_le) hrlen)]

/-- The token whose start index was recorded at position `k` is the
`k`-th maximal non-whitespace run, read off the original buffer at that
index. -/
theorem wordStarts_content :
    ∀ n buf, buf.length ≤ n → ∀ pre : List Char, ∀ k idx : Nat,
      (wordStarts buf pre.length)[k]? = some idx →
      (wordsOf buf)[k]? =
        some (((pre ++ buf).drop idx).takeWhile (fun d => !isWS d)) := by
  intro n
  induction n with
  | zero =>
      intro buf hlen pre k idx h
      have : buf = [] := List.length_eq_zero.mp (Nat.le_zero.mp hlen)
      subst this
      simp [wordStarts, wordStartsF] at h
  | succ n ih =>
      intro buf hlen pre k idx h
      cases buf with
      | nil => simp [wordStarts, wordStartsF] at h
      | cons c r =>
          have hrlen : r.length ≤ n := by
            simp only [List.length_cons] at hlen
            omega
          by_cases hw : isWS c
          · rw [wordStarts_cons_ws c r pre.length hw] at h
            have hlen1 : pre.length + 1 = (pre ++ [c]).length := by simp
            rw [hlen1] at h
            have := ih r hrlen (pre ++ [c]) k idx h
            rw [wordsOf_cons_ws c r hw]
            simpa using this
          · have hwf : isWS c = false := Bool.eq_false_iff.mpr hw
            rw [wordStarts_cons_tok c r pre.length hwf] at h
            rw [wordsOf_cons_tok c r hwf]
            cases k with
            | zero =>
                simp only [List.getElem?_cons_zero, Option.some.injEq] at h
                subst h
                rw [List.getElem?_cons_zero]
                rw [List.drop_left]
                rw [List.takeWhile_cons_of_pos (by simp [hwf])]
            | succ k =>
                simp only [List.getElem?_cons_succ] at h ⊢
                have hoff : pre.length + 1 + (r.takeWhile (fun d => !isWS d)).length =
                    (pre ++ c :: r.takeWhile (fun d => !isWS d)).length := by
                  simp
                  omega
                rw [hoff] at h
                have := ih (r.dropWhile (fun d => !isWS d))
                  (le_trans ((List.dropWhile_sublist _).length_le) hrlen)
                  (pre ++ c :: r.takeWhile (fun d => !isWS d)) k idx h
                rw [this]
                congr 2
                simp [List.append_assoc, List.takeWhile_append_dropWhile]

end Monitor

namespace Monitor

theorem zapWS_takeWhile_nul (l : List Char) (hnul : NUL ∉ l) :
    (zapWS l).takeWhile (fun c => c != NUL) = l.takeWhile (fun d => !isWS d) := by
  induction l with
  | nil => rfl
  | cons c r ih =>
      have hc : c ≠ NUL := fun h => hnul (h ▸ List.mem_cons_self c r)
      have hrnul : NUL ∉ r := fun h => hnul (List.mem_cons_of_mem c h)
      rw [zapWS_cons]
      by_cases hw : isWS c
      · simp [hw, List.takeWhile_cons]
      · simp [hw, List.takeWhile_cons, hc, ih hrnul]

/-- Reading the C string at index `idx` of the mutated buffer gives
the non-whitespace run of the original buffer starting there. -/
theorem tokenStr_zapWS (buf : List Char) (hnul : NUL ∉ buf) (idx : Nat) :
    tokenStr (zapWS buf) idx = (buf.drop idx).takeWhile (fun d => !isWS d) := by
  have hdrop : (zapWS buf).drop idx = zapWS (buf.drop idx) := by
    rw [zapWS, zapWS, List.map_drop]
  rw [tokenStr, hdrop]
  exact zapWS_takeWhile_nul (buf.drop idx)
    (fun h => hnul ((List.drop_sublist idx buf).subset h))

/-- A completed tokenization of a whole line. -/
theorem tokenize_complete (buf : List Char) (hnul : NUL ∉ buf)
    (hw : (wordsOf buf).length ≤ MAXARGS - 1) :
    tokenize buf = (zapWS buf, wordStarts buf 0, false) := by
  have h := tokLoop_gobble_complete buf.length buf le_rfl hnul [] []
    (by simpa using hw)
  simpa [tokenize] using h

/-- An overflowing tokenization of a whole line. -/
theorem tokenize_overflow (buf : List Char) (hnul : NUL ∉ buf)
    (hw : MAXARGS ≤ (wordsOf buf).length) :
    (tokenize buf).2.2 = true := by
  have h := tokLoop_gobble_overflow buf.length buf le_rfl hnul [] []
    (by simp [MAXARGS]) (by simpa using hw)
  simpa [tokenize] using h

/-- Each recorded token, read from the mutated buffer as `argv[k]` is,
equals the corresponding maximal non-whitespace run of the input. -/
theorem tokenize_token_content (buf : List Char) (hnul : NUL ∉ buf) (k idx : Nat)
    (h : (wordStarts buf 0)[k]? = some idx) :
    (wordsOf buf)[k]? = some (tokenStr (zapWS buf) idx) := by
  have h0 : (wordStarts buf ([] : List Char).length)[k]? = some idx := by simpa using h
  have hc := wordStarts_content buf.length buf le_rfl [] k idx h0
  rw [tokenStr_zapWS buf hnul idx]
  simpa using hc

/-! ### Properties of the dispatcher -/

theorem lookupCmd_eq_none (w : List Char) (h : ∀ cmd ∈ commands, w ≠ cmd.name) :
    lookupCmd w = none := by
  have h1 : w ≠ "help".toList :=
    h { name := "help".toList, desc := "Display this list of commands",
        func := mon_help } (by rw [commands]; exact List.mem_cons_self _ _)
  have h2 : w ≠ "kerninfo".toList :=
    h { name := "kerninfo".toList, desc := "Display information about the kernel",
        func := mon_kerninfo }
      (by rw [commands]; exact List.mem_cons_of_mem _ (List.mem_cons_self _ _))
  have h3 : w ≠ "backtrace".toList :=
    h { name := "backtrace".toList, desc := "Display stack backtrace",
        func := mon_backtrace }
      (by rw [commands]
          exact List.mem_cons_of_mem _ (List.mem_cons_of_mem _ (List.mem_cons_self _ _)))
  simp only [lookupCmd, commands, lookupIn]
  rw [if_neg h1, if_neg h2, if_neg h3]

theorem commands_func_zero : ∀ cmd ∈ commands, ∀ n args, cmd.func n args = 0 := by
  intro cmd hc
  simp only [commands, List.mem_cons, List.not_mem_nil, or_false] at hc
  rcases hc with rfl | rfl | rfl <;> intro n args <;> rfl

/-- Every dispatch of `runcmd` returns 0: the early returns are
literal zeros, and each handler in the table returns 0. -/
theorem runcmd_eq_zero (buf : List Char) : runcmd buf = 0 := by
  rcases htk : tokenize buf with ⟨mb, av, fl⟩
  cases fl
  · cases hav : av with
    | nil => simp [runcmd, htk, hav]
    | cons i0 t =>
        cases hlk : lookupCmd (tokenStr mb i0) with
        | none => simp [runcmd, htk, hav, hlk]
        | some i =>
            cases hgi : commands[i]? with
            | none => simp [runcmd, htk, hav, hlk, hgi]
            | some c =>
                have hcm : c ∈ commands := List.getElem?_mem hgi
                simp [runcmd, htk, hav, hlk, hgi, commands_func_zero c hcm]
  · simp [runcmd, htk]

end Monitor

namespace Monitor

/-- Claim C7: an input line with more than `MAXARGS - 1 = 15`
whitespace-separated tokens (so 16 or more, in particular exactly 16)
makes the tokenizer take the `Too many arguments` early return: the
message is printed, no command handler is invoked, and `runcmd`
returns 0, the non-negative continue signal. -/
theorem C7_too_many_arguments (buf : List Char) (hnul : NUL ∉ buf)
    (hcnt : MAXARGS ≤ (wordsOf buf).length) :
    (tokenize buf).2.2 = true ∧
    runcmdOutcome buf = CmdOutcome.tooMany ∧
    (∀ i, runcmdOutcome buf ≠ CmdOutcome.invoked i) ∧
    runcmdMsgs buf = ["Too many arguments (max 16)"] ∧
    runcmd buf = 0 ∧ 0 ≤ runcmd buf := by
  have hov := tokenize_overflow buf hnul hcnt
  rcases htk : tokenize buf with ⟨mb, av, fl⟩
  rw [htk] at hov
  simp only at hov
  subst hov
  have hout : runcmdOutcome buf = CmdOutcome.tooMany := by
    simp [runcmdOutcome, htk]
  refine ⟨by rfl, hout, ?_, ?_, runcmd_eq_zero buf, by simp [runcmd_eq_zero]⟩
  · intro i hinv
    rw [hout] at hinv
    cases hinv
  · simp only [runcmdMsgs, hout]
    decide

theorem C7_too_many_arguments_witness :
    (tokenize "a b c d e f g h i j k l m n o p".toList).2.2 = true ∧
    runcmdOutcome "a b c d e f g h i j k l m n o p".toList = CmdOutcome.tooMany ∧
    (∀ i, runcmdOutcome "a b c d e f g h i j k l m n o p".toList ≠ CmdOutcome.invoked i) ∧
    runcmdMsgs "a b c d e f g h i j k l m n o p".toList = ["Too many arguments (max 16)"] ∧
    runcmd "a b c d e f g h i j k l m n o p".toList = 0 ∧
    0 ≤ runcmd "a b c d e f g h i j k l m n o p".toList :=
  C7_too_many_arguments "a b c d e f g h i j k l m n o p".toList (by decide) (by decide)

/-- Claim C8: an input line of at most 15 tokens whose first token
matches no command-table entry makes the lookup loop fail, `runcmd`
print exactly `Unknown command '<name>'` with the first token as the
name, invoke no handler, and return 0, the non-negative continue
signal. -/
theorem C8_unknown_command (buf w : List Char) (hnul : NUL ∉ buf)
    (hcnt : (wordsOf buf).length ≤ MAXARGS - 1)
    (hhead : (wordsOf buf)[0]? = some w)
    (hunk : ∀ cmd ∈ commands, w ≠ cmd.name) :
    lookupCmd w = none ∧
    runcmdOutcome buf = CmdOutcome.unknown w ∧
    (∀ i, runcmdOutcome buf ≠ CmdOutcome.invoked i) ∧
    runcmdMsgs buf = ["Unknown command \x27" ++ String.mk w ++ "\x27"] ∧
    runcmd buf = 0 ∧ 0 ≤ runcmd buf := by
  have hlook : lookupCmd w = none := lookupCmd_eq_none w hunk
  have ht := tokenize_complete buf hnul hcnt
  have hpos : 0 < (wordStarts buf 0).length := by
    rw [wordStarts_length buf.length buf le_rfl 0]
    by_contra hz
    have : (wordsOf buf) = [] := List.length_eq_zero.mp (by omega)
    rw [this] at hhead
    cases hhead
  obtain ⟨i0, av, hav⟩ : ∃ i0 av, wordStarts buf 0 = i0 :: av := by
    cases hws0 : wordStarts buf 0 with
    | nil => rw [hws0] at hpos; simp at hpos
    | cons a b => exact ⟨a, b, rfl⟩
  have hi0 : (wordStarts buf 0)[0]? = some i0 := by rw [hav]; simp
  have hcontent := tokenize_token_content buf hnul 0 i0 hi0
  rw [hhead] at hcontent
  have hwtok : tokenStr (zapWS buf) i0 = w := by
    injection hcontent with h
    exact h.symm
  have hout : runcmdOutcome buf = CmdOutcome.unknown w := by
    simp [runcmdOutcome, ht, hav, hwtok, hlook]
  refine ⟨hlook, hout, ?_, ?_, runcmd_eq_zero buf, by simp [runcmd_eq_zero]⟩
  · intro i hinv
    rw [hout] at hinv
    cases hinv
  · simp [runcmdMsgs, hout]

theorem C8_unknown_command_witness :
    lookupCmd "unknown".toList = none ∧
    runcmdOutcome "unknown".toList = CmdOutcome.unknown "unknown".toList ∧
    (∀ i, runcmdOutcome "unknown".toList ≠ CmdOutcome.invoked i) ∧
    runcmdMsgs "unknown".toList =
      ["Unknown command \x27" ++ String.mk "unknown".toList ++ "\x27"] ∧
    runcmd "unknown".toList = 0 ∧ 0 ≤ runcmd "unknown".toList :=
  C8_unknown_command "unknown".toList "unknown".toList (by decide) (by decide)
    (by decide) (by decide)

/-- Claim C9: the monitor loop breaks out only when an invoked handler
returns a negative signal; a null `readline` result just continues;
and since every handler of the table returns 0, no input can ever
reach the exit state. -/
theorem C9_exit_never_reached :
    (∀ line, monitorStep line = true →
       ∃ buf, line = some buf ∧ runcmd buf < 0) ∧
    monitorStep none = false ∧
    (∀ cmd ∈ commands, ∀ n args, cmd.func n args = 0) ∧
    (∀ line, monitorStep line = false) ∧
    (∀ inputs, monitorRun inputs = false) := by
  have hstep : ∀ line, monitorStep line = false := by
    intro line
    cases line with
    | none => rfl
    | some buf => simp [monitorStep, runcmd_eq_zero]
  refine ⟨?_, rfl, commands_func_zero, hstep, ?_⟩
  · intro line h
    rw [hstep line] at h
    cases h
  · intro inputs
    induction inputs with
    | nil => rfl
    | cons a t ih => simp [monitorRun, hstep, ih]

theorem C9_exit_never_reached_witness :
    monitorStep (some "backtrace".toList) = false :=
  C9_exit_never_reached.2.2.2.1 (some "backtrace".toList)

/-- Claim C10: a completed tokenization mutates the line buffer only
at whitespace positions — every whitespace byte is overwritten with
NUL, every other byte is unchanged — and each recorded token start
index points into the buffer at the first byte of a maximal run of
non-whitespace characters, whose characters are what `argv[k]` reads
back from the mutated buffer. -/
theorem C10_in_place_mutation (buf : List Char) (hnul : NUL ∉ buf)
    (hcnt : (wordsOf buf).length ≤ MAXARGS - 1) :
    (tokenize buf).2.2 = false ∧
    (tokenize buf).1 = buf.map (fun c => if isWS c then NUL else c) ∧
    (tokenize buf).2.1 = wordStarts buf 0 ∧
    (∀ k idx : Nat, (tokenize buf).2.1[k]? = some idx →
       (wordsOf buf)[k]? = some (tokenStr (tokenize buf).1 idx)) := by
  have ht := tokenize_complete buf hnul hcnt
  refine ⟨by rw [ht], by rw [ht]; rfl, by rw [ht], ?_⟩
  intro k idx hidx
  rw [ht] at hidx ⊢
  exact tokenize_token_content buf hnul k idx (by simpa using hidx)

theorem C10_in_place_mutation_witness :
    (tokenize "  backtrace 12 ".toList).2.2 = false ∧
    (tokenize "  backtrace 12 ".toList).1 =
      "  backtrace 12 ".toList.map (fun c => if isWS c then NUL else c) ∧
    (tokenize "  backtrace 12 ".toList).2.1 = wordStarts "  backtrace 12 ".toList 0 ∧
    (∀ k idx : Nat, (tokenize "  backtrace 12 ".toList).2.1[k]? = some idx →
       (wordsOf "  backtrace 12 ".toList)[k]? =
         some (tokenStr (tokenize "  backtrace 12 ".toList).1 idx)) :=
  C10_in_place_mutation "  backtrace 12 ".toList (by decide) (by decide)

end Monitor
